import Mathlib

/-!
Verification development for the TOPSIS ranking engine of the CDC-EJI repository
(`src/eji_analyzer_archived.py`): the functions `normalize_data` (lines 38-50) and
`topsis` (lines 53-94), together with the pipeline of `main` (lines 221-222).

Modelling conventions.  A pandas cell is a float or `NaN`; float data values are
modelled as exact rationals and a cell is `Option ℚ` with `none` for `NaN`/absent.
The square root and the closeness score live in `ℝ`.  A `DataFrame` is its list of
column names plus its list of rows; a row maps a column name to a cell.  Python
mutates the argument of `normalize_data` in place, so the model returns the post-state of
the argument explicitly next to the return value; messages shown through `st.error`
are collected in a list.
-/

namespace EJI

/-- A cell of a data table: a numeric value, or absent (a pandas `NaN`). -/
abbrev Value := Option ℚ

/-- A row of a data table: each column name is mapped to a cell. -/
abbrev Row := String → Value

/-- Model of a pandas `DataFrame`: the column names together with the rows. -/
structure DataFrame where
  cols : List String
  rows : List Row

/-- Model of the bare `pd.DataFrame()` (no columns, no rows). -/
def DataFrame.empty : DataFrame := ⟨[], []⟩

/-- NaN-skipping maximum of a list of present values (pandas reductions default to
`skipna=True` and sklearn fits with `np.nanmax`): `none` when the list is empty. -/
def nanMax {α : Type} [LinearOrder α] : List α → Option α
  | [] => none
  | x :: xs =>
    match nanMax xs with
    | none => some x
    | some y => some (max x y)

/-- NaN-skipping minimum, dual to `nanMax`. -/
def nanMin {α : Type} [LinearOrder α] : List α → Option α
  | [] => none
  | x :: xs =>
    match nanMin xs with
    | none => some x
    | some y => some (min x y)

/-- Present (non-absent) values of column `c` across the given rows. -/
def presentVals (rows : List Row) (c : String) : List ℚ :=
  rows.filterMap (fun r => r c)

/-- Column maximum over present values, as computed by `MinMaxScaler.fit`. -/
def colMax (rows : List Row) (c : String) : Option ℚ :=
  nanMax (presentVals rows c)

/-- Column minimum over present values, as computed by `MinMaxScaler.fit`. -/
def colMin (rows : List Row) (c : String) : Option ℚ :=
  nanMin (presentVals rows c)

/-- Transform of one cell by `sklearn.preprocessing.MinMaxScaler` (feature range
`(0, 1)`) fitted on a column with present minimum `mn` and maximum `mx`: a present
value `x` becomes `(x - mn) / (mx - mn)`, except that a zero range is replaced by `1`
before dividing (sklearn `_handle_zeros_in_scale`, so a constant column maps to `0`
instead of raising); `NaN` is disregarded in `fit` and maintained in `transform`.
A cell of a fully absent column stays absent (its fitted statistics are `NaN` and
`NaN` arithmetic propagates). -/
def scaleCell (mn mx : Option ℚ) (v : Value) : Value :=
  match v, mn, mx with
  | some x, some a, some b => some ((x - a) / (if b - a = 0 then 1 else b - a))
  | _, _, _ => none

/-- Row transformer of `normalize_data`: every selected column is min-max scaled with
statistics fitted on the whole table passed in; other columns are untouched. -/
def normRow (rows : List Row) (sel : List String) (r : Row) : Row :=
  fun c => if c ∈ sel then scaleCell (colMin rows c) (colMax rows c) (r c) else r c

/-- Result of a call to `normalize_data`.  The Python function assigns
`df[selected_indicators] = scaler.fit_transform(df[selected_indicators])`, mutating
the argument, so the model passes state explicitly: `final` is the state of the
table of the caller after the call, `ret` the returned table, `msgs` the messages
surfaced through `st.error`. -/
structure NormResult where
  final : DataFrame
  ret : DataFrame
  msgs : List String

/-- Model of `normalize_data` (lines 38-50).  An empty selection returns the bare
empty frame.  Reading `df[selected_indicators]` with a missing column raises
`KeyError` and `MinMaxScaler.fit` raises on a zero-row table; either exception occurs
before the in-place assignment, is caught, surfaced through `st.error`, and yields
the bare empty frame with the argument unchanged.  Otherwise the selected columns
are overwritten in place with their scaled values and the same mutated table is
returned. -/
def normalize_data (df : DataFrame) (sel : List String) : NormResult :=
  if sel = [] then ⟨df, DataFrame.empty, []⟩
  else if (¬ ∀ c ∈ sel, c ∈ df.cols) ∨ df.rows.isEmpty then
    ⟨df, DataFrame.empty, ["An error occurred during normalization"]⟩
  else
    let df2 : DataFrame := ⟨df.cols, df.rows.map (normRow df.rows sel)⟩
    ⟨df2, df2, []⟩

/-- Output of `topsis`: either the bare `pd.DataFrame()` returned on an invalid
selection (no rows and, in particular, no `topsis_score` column), or a result table:
the input frame with the `topsis_score` and `topsis_rank` columns appended by
`df.assign` (the two lists are parallel to the rows of the carried frame). -/
inductive TopsisOut where
  | failure : TopsisOut
  | table : DataFrame → List (Option ℝ) → List (Option ℝ) → TopsisOut

/-- Weighted cell: `weights = {indicator: 1 for indicator in selected_indicators}`
followed by `df[selected_indicators].mul(list(weights.values()))`, so each selected
value is multiplied by the weight `1` and `NaN` propagates. -/
def wcell (r : Row) (c : String) : Value :=
  (r c).map (fun x => x * 1)

/-- Column `c` of the weighted matrix restricted to its present values, the list the
`max`/`min` reductions of lines 77-78 act on. -/
def wcol (rows : List Row) (c : String) : List ℚ :=
  rows.filterMap (fun r => wcell r c)

/-- Per-column ideal best, `weighted_matrix.max(axis=0)` (line 77, skips `NaN`). -/
def ideal_best (rows : List Row) (c : String) : Option ℚ :=
  nanMax (wcol rows c)

/-- Per-column ideal worst, `weighted_matrix.min(axis=0)` (line 78, skips `NaN`). -/
def ideal_worst (rows : List Row) (c : String) : Option ℚ :=
  nanMin (wcol rows c)

/-- Squared difference of a cell and a reference cell; `NaN` propagates through the
pandas broadcast subtraction and the square. -/
def sqDiff (v b : Value) : Value :=
  match v, b with
  | some x, some y => some ((x - y) ^ 2)
  | _, _ => none

/-- Row sum of `(weighted_matrix - ideal)**2` over the selected columns with pandas
`sum(axis=1)` semantics (lines 81-82): `NaN` terms are skipped and a row with no
present term sums to `0`. -/
def sumSq (rows : List Row) (sel : List String) (ideal : List Row → String → Option ℚ)
    (r : Row) : ℚ :=
  ((sel.map (fun c => sqDiff (wcell r c) (ideal rows c))).filterMap id).sum

/-- Euclidean distance of a row to the ideal best vector (line 81). -/
noncomputable def distance_to_best (rows : List Row) (sel : List String) (r : Row) : ℝ :=
  Real.sqrt ((sumSq rows sel ideal_best r : ℚ) : ℝ)

/-- Euclidean distance of a row to the ideal worst vector (line 82). -/
noncomputable def distance_to_worst (rows : List Row) (sel : List String) (r : Row) : ℝ :=
  Real.sqrt ((sumSq rows sel ideal_worst r : ℚ) : ℝ)

/-- TOPSIS closeness score of one row (line 85):
`topsis_score = distance_to_worst / (distance_to_best + distance_to_worst)`.
The denominator is a sum of two nonnegative square roots, so it is zero exactly when
both distances are zero; the float division `0 / 0` yields `NaN`, modelled `none`. -/
noncomputable def topsis_score (rows : List Row) (sel : List String) (r : Row) : Option ℝ :=
  if distance_to_best rows sel r + distance_to_worst rows sel r = 0 then none
  else some (distance_to_worst rows sel r /
    (distance_to_best rows sel r + distance_to_worst rows sel r))

/-- The `topsis_score` column assigned on line 88, parallel to the input rows. -/
noncomputable def topsisScores (rows : List Row) (sel : List String) : List (Option ℝ) :=
  rows.map (topsis_score rows sel)

/-- Distinct defined (non-`NaN`) values of a score column: the value set pandas
dense ranking ranks against, and the `pct=True` denominator. -/
def distinctVals {α : Type} [DecidableEq α] (scores : List (Option α)) : List α :=
  (scores.filterMap id).dedup

/-- Pandas dense descending rank (the rank call with ascending False, method dense) of a
defined score value: one more than the number of distinct defined values strictly
greater than it. -/
def denseRank {α : Type} [LinearOrder α] [DecidableEq α]
    (scores : List (Option α)) (s : α) : ℕ :=
  ((distinctVals scores).filter (fun t => s < t)).length + 1

/-- Percentile form of the dense rank: with `pct=True` pandas divides each dense rank
by the number of distinct defined values; line 89 then multiplies by `100`. -/
def rankPct {α : Type} [LinearOrderedField α] [DecidableEq α]
    (scores : List (Option α)) (s : α) : α :=
  (denseRank scores s : α) / ((distinctVals scores).length : α) * 100

/-- The `topsis_rank` column of line 89:
the score column ranked with ascending False, method dense, pct True, times 100;
a `NaN` score keeps a `NaN` rank (the default na option keeps them). -/
def rankPctCol {α : Type} [LinearOrderedField α] [DecidableEq α]
    (scores : List (Option α)) : List (Option α) :=
  scores.map (Option.map (rankPct scores))

/-- Test of line 64, `df[selected_indicators].isnull().all().all()`: every selected
cell of every row is absent (vacuously true for a zero-row table). -/
def allNull (df : DataFrame) (sel : List String) : Bool :=
  df.rows.all (fun r => sel.all (fun c => (r c).isNone))

/-- Model of `topsis` (lines 53-94).  An empty selection returns the bare empty frame
with no message (line 56); a selection with any column missing from the table is
reported through `st.error` and returns the bare empty frame (lines 59-61); a table
whose selected cells are all absent is reported and returned with all-`NaN` score and
rank columns (lines 64-66); otherwise the score and percentile-rank columns are
computed and appended. -/
noncomputable def topsis (df : DataFrame) (sel : List String) : TopsisOut × List String :=
  if sel = [] then (TopsisOut.failure, [])
  else if ¬ ∀ c ∈ sel, c ∈ df.cols then
    (TopsisOut.failure, ["One or more selected indicators are not found in the data."])
  else if allNull df sel then
    (TopsisOut.table df (df.rows.map (fun _ => none)) (df.rows.map (fun _ => none)),
      ["All values are missing for the selected indicators"])
  else
    (TopsisOut.table df (topsisScores df.rows sel) (rankPctCol (topsisScores df.rows sel)),
      [])

/-- Per-region score of the whole engine pipeline as invoked by `main`
(lines 221-222: `normalize_data` on a copy of the loaded table, then `topsis` on the
normalized table): the TOPSIS score that the normalized table assigns to the
normalization of row `r`. -/
noncomputable def engineScoreRow (rows : List Row) (sel : List String) (r : Row) : Option ℝ :=
  topsis_score (rows.map (normRow rows sel)) sel (normRow rows sel r)

/-! ### Basic facts about the embedded operations -/

theorem wcell_eq (r : Row) (c : String) : wcell r c = r c := by
  cases h : r c <;> simp [wcell, h]

theorem wcol_eq (rows : List Row) (c : String) : wcol rows c = presentVals rows c := by
  simp [wcol, presentVals, wcell_eq]

theorem ideal_best_eq_colMax (rows : List Row) (c : String) :
    ideal_best rows c = colMax rows c := by
  simp [ideal_best, colMax, wcol_eq]

theorem ideal_worst_eq_colMin (rows : List Row) (c : String) :
    ideal_worst rows c = colMin rows c := by
  simp [ideal_worst, colMin, wcol_eq]

theorem nanMax_mem {α : Type} [LinearOrder α] :
    ∀ {l : List α} {m : α}, nanMax l = some m → m ∈ l := by
  intro l
  induction l with
  | nil => intro m h; simp [nanMax] at h
  | cons x xs ih =>
    intro m h
    rw [nanMax] at h
    cases hx : nanMax xs with
    | none => rw [hx] at h; simp at h; simp [h]
    | some y =>
      rw [hx] at h
      simp at h
      rcases max_choice x y with hc | hc
      · rw [hc] at h; simp [h]
      · rw [hc] at h; right; exact h ▸ ih hx

theorem nanMax_eq_none {α : Type} [LinearOrder α] {l : List α} :
    nanMax l = none ↔ l = [] := by
  induction l with
  | nil => simp [nanMax]
  | cons x xs ih =>
    rw [nanMax]
    cases hx : nanMax xs <;> simp

theorem nanMin_eq_none {α : Type} [LinearOrder α] {l : List α} :
    nanMin l = none ↔ l = [] := by
  induction l with
  | nil => simp [nanMin]
  | cons x xs ih =>
    rw [nanMin]
    cases hx : nanMin xs <;> simp

theorem le_nanMax {α : Type} [LinearOrder α] :
    ∀ {l : List α} {m x : α}, nanMax l = some m → x ∈ l → x ≤ m := by
  intro l
  induction l with
  | nil => intro m x _ hx; simp at hx
  | cons a xs ih =>
    intro m x h hx
    rw [nanMax] at h
    cases hax : nanMax xs with
    | none =>
      rw [hax] at h
      simp only [Option.some.injEq] at h
      have hxs : xs = [] := nanMax_eq_none.mp hax
      subst hxs
      rcases List.mem_cons.mp hx with hx | hx
      · exact le_of_eq (hx.trans h)
      · simp at hx
    | some y =>
      rw [hax] at h
      simp only [Option.some.injEq] at h
      rcases List.mem_cons.mp hx with hx | hx
      · subst hx; exact h ▸ le_max_left x y
      · calc x ≤ y := ih hax hx
          _ ≤ max a y := le_max_right a y
          _ = m := h

theorem nanMin_mem {α : Type} [LinearOrder α] :
    ∀ {l : List α} {m : α}, nanMin l = some m → m ∈ l := by
  intro l
  induction l with
  | nil => intro m h; simp [nanMin] at h
  | cons x xs ih =>
    intro m h
    rw [nanMin] at h
    cases hx : nanMin xs with
    | none => rw [hx] at h; simp at h; simp [h]
    | some y =>
      rw [hx] at h
      simp at h
      rcases min_choice x y with hc | hc
      · rw [hc] at h; simp [h]
      · rw [hc] at h; right; exact h ▸ ih hx

theorem nanMin_le {α : Type} [LinearOrder α] :
    ∀ {l : List α} {m x : α}, nanMin l = some m → x ∈ l → m ≤ x := by
  intro l
  induction l with
  | nil => intro m x _ hx; simp at hx
  | cons a xs ih =>
    intro m x h hx
    rw [nanMin] at h
    cases hax : nanMin xs with
    | none =>
      rw [hax] at h
      simp only [Option.some.injEq] at h
      have hxs : xs = [] := nanMin_eq_none.mp hax
      subst hxs
      rcases List.mem_cons.mp hx with hx | hx
      · exact le_of_eq (h.symm.trans hx.symm)
      · simp at hx
    | some y =>
      rw [hax] at h
      simp only [Option.some.injEq] at h
      rcases List.mem_cons.mp hx with hx | hx
      · subst hx; exact h ▸ min_le_left x y
      · calc m = min a y := h.symm
          _ ≤ y := min_le_right a y
          _ ≤ x := ih hax hx

theorem nanMax_perm {α : Type} [LinearOrder α] {l₁ l₂ : List α} (h : l₁.Perm l₂) :
    nanMax l₁ = nanMax l₂ := by
  induction h with
  | nil => rfl
  | cons x h ih => rw [nanMax, nanMax, ih]
  | swap x y l =>
    rw [nanMax, nanMax, nanMax, nanMax]
    cases hl : nanMax l with
    | none => simp [max_comm]
    | some z => simp [max_left_comm]
  | trans h₁ h₂ ih₁ ih₂ => exact ih₁.trans ih₂

theorem nanMin_perm {α : Type} [LinearOrder α] {l₁ l₂ : List α} (h : l₁.Perm l₂) :
    nanMin l₁ = nanMin l₂ := by
  induction h with
  | nil => rfl
  | cons x h ih => rw [nanMin, nanMin, ih]
  | swap x y l =>
    rw [nanMin, nanMin, nanMin, nanMin]
    cases hl : nanMin l with
    | none => simp [min_comm]
    | some z => simp [min_left_comm]
  | trans h₁ h₂ ih₁ ih₂ => exact ih₁.trans ih₂

theorem mem_presentVals {rows : List Row} {c : String} {x : ℚ} :
    x ∈ presentVals rows c ↔ ∃ r ∈ rows, r c = some x := by
  simp [presentVals, List.mem_filterMap]

theorem presentVals_perm {rows₁ rows₂ : List Row} (h : rows₁.Perm rows₂) (c : String) :
    (presentVals rows₁ c).Perm (presentVals rows₂ c) := by
  unfold presentVals
  exact h.filterMap (fun r => r c)

theorem colMax_perm {rows₁ rows₂ : List Row} (h : rows₁.Perm rows₂) (c : String) :
    colMax rows₁ c = colMax rows₂ c :=
  nanMax_perm (presentVals_perm h c)

theorem colMin_perm {rows₁ rows₂ : List Row} (h : rows₁.Perm rows₂) (c : String) :
    colMin rows₁ c = colMin rows₂ c :=
  nanMin_perm (presentVals_perm h c)

theorem colMin_le_of_present {rows : List Row} {c : String} {r : Row} {v a : ℚ}
    (hr : r ∈ rows) (hv : r c = some v) (ha : colMin rows c = some a) : a ≤ v :=
  nanMin_le ha (mem_presentVals.mpr ⟨r, hr, hv⟩)

theorem le_colMax_of_present {rows : List Row} {c : String} {r : Row} {v b : ℚ}
    (hr : r ∈ rows) (hv : r c = some v) (hb : colMax rows c = some b) : v ≤ b :=
  le_nanMax hb (mem_presentVals.mpr ⟨r, hr, hv⟩)

theorem colMin_isSome_of_present {rows : List Row} {c : String} {r : Row} {v : ℚ}
    (hr : r ∈ rows) (hv : r c = some v) : ∃ a, colMin rows c = some a := by
  cases ha : colMin rows c with
  | some a => exact ⟨a, rfl⟩
  | none =>
    exfalso
    have : presentVals rows c = [] := nanMin_eq_none.mp ha
    have hv2 : v ∈ presentVals rows c := mem_presentVals.mpr ⟨r, hr, hv⟩
    rw [this] at hv2
    simp at hv2

theorem colMax_isSome_of_present {rows : List Row} {c : String} {r : Row} {v : ℚ}
    (hr : r ∈ rows) (hv : r c = some v) : ∃ b, colMax rows c = some b := by
  cases hb : colMax rows c with
  | some b => exact ⟨b, rfl⟩
  | none =>
    exfalso
    have : presentVals rows c = [] := nanMax_eq_none.mp hb
    have hv2 : v ∈ presentVals rows c := mem_presentVals.mpr ⟨r, hr, hv⟩
    rw [this] at hv2
    simp at hv2

theorem scaleCell_of_ne (a b x : ℚ) (h : b - a ≠ 0) :
    scaleCell (some a) (some b) (some x) = some ((x - a) / (b - a)) := by
  simp [scaleCell, if_neg h]

theorem scaleCell_of_zero_range (a b x : ℚ) (h : b - a = 0) :
    scaleCell (some a) (some b) (some x) = some (x - a) := by
  simp [scaleCell, if_pos h]

theorem scaleCell_none (mn mx : Option ℚ) : scaleCell mn mx none = none := by
  cases mn <;> cases mx <;> rfl

theorem scaleCell_none_left (mx : Option ℚ) (v : Value) : scaleCell none mx v = none := by
  cases v <;> cases mx <;> rfl

theorem normRow_mem (rows : List Row) {sel : List String} {c : String} (r : Row)
    (hc : c ∈ sel) :
    normRow rows sel r c = scaleCell (colMin rows c) (colMax rows c) (r c) := by
  simp [normRow, if_pos hc]

theorem normRow_not_mem (rows : List Row) {sel : List String} {c : String} (r : Row)
    (hc : c ∉ sel) : normRow rows sel r c = r c := by
  simp [normRow, if_neg hc]

/-! ### Facts about the distance, score and rank stages -/

theorem sumSq_of_all_absent {rows : List Row} {sel : List String} {r : Row}
    (ideal : List Row → String → Option ℚ) (h : ∀ c ∈ sel, r c = none) :
    sumSq rows sel ideal r = 0 := by
  induction sel with
  | nil => rfl
  | cons c cs ih =>
    have hc : r c = none := h c (List.mem_cons_self c cs)
    have hcs : ∀ d ∈ cs, r d = none := fun d hd => h d (List.mem_cons_of_mem c hd)
    rw [sumSq] at ih ⊢
    simp only [List.map_cons]
    rw [show sqDiff (wcell r c) (ideal rows c) = none by
      rw [wcell_eq, hc]; cases ideal rows c <;> rfl]
    rw [List.filterMap_cons_none rfl]
    exact ih hcs

theorem topsis_score_of_all_absent {rows : List Row} {sel : List String} {r : Row}
    (h : ∀ c ∈ sel, r c = none) : topsis_score rows sel r = none := by
  rw [topsis_score]
  rw [distance_to_best, distance_to_worst,
    sumSq_of_all_absent ideal_best h, sumSq_of_all_absent ideal_worst h]
  norm_num

theorem mem_distinctVals {α : Type} [DecidableEq α] {scores : List (Option α)} {s : α} :
    s ∈ distinctVals scores ↔ some s ∈ scores := by
  simp [distinctVals, List.mem_dedup, List.mem_filterMap]

theorem distinctVals_nodup {α : Type} [DecidableEq α] (scores : List (Option α)) :
    (distinctVals scores).Nodup :=
  List.nodup_dedup _

theorem denseRank_pos {α : Type} [LinearOrder α] [DecidableEq α]
    (scores : List (Option α)) (s : α) : 1 ≤ denseRank scores s :=
  Nat.le_add_left 1 _

theorem denseRank_le_card {α : Type} [LinearOrder α] [DecidableEq α]
    {scores : List (Option α)} {s : α} (hs : some s ∈ scores) :
    denseRank scores s ≤ (distinctVals scores).length := by
  rw [denseRank]
  have hmem : s ∈ distinctVals scores := mem_distinctVals.mpr hs
  have hsub : ((distinctVals scores).filter (fun t => s < t)).Sublist
      (distinctVals scores) := List.filter_sublist _
  have hle := hsub.length_le
  rcases lt_or_eq_of_le hle with hlt | heq
  · exact Nat.succ_le_of_lt hlt
  · exfalso
    have heqf : (distinctVals scores).filter (fun t => s < t) = distinctVals scores :=
      hsub.eq_of_length heq
    have hmem2 : s ∈ (distinctVals scores).filter (fun t => s < t) := by
      rw [heqf]; exact hmem
    have := (List.mem_filter.mp hmem2).2
    simp at this

theorem denseRank_eq_one_of_top {α : Type} [LinearOrder α] [DecidableEq α]
    {scores : List (Option α)} {s : α}
    (htop : ∀ t, some t ∈ scores → t ≤ s) : denseRank scores s = 1 := by
  rw [denseRank]
  have : (distinctVals scores).filter (fun t => s < t) = [] := by
    rw [List.filter_eq_nil_iff]
    intro t ht
    have := htop t (mem_distinctVals.mp ht)
    simp [not_lt.mpr this]
  rw [this]
  rfl

theorem denseRank_lt_of_gt {α : Type} [LinearOrder α] [DecidableEq α]
    {scores : List (Option α)} {s t : α}
    (hs : some s ∈ scores) (h : t < s) :
    denseRank scores s < denseRank scores t := by
  rw [denseRank, denseRank]
  have hmono : ((distinctVals scores).filter (fun u => s < u)).Sublist
      ((distinctVals scores).filter (fun u => t < u)) := by
    apply List.monotone_filter_right
    intro a ha
    simp only [decide_eq_true_eq] at ha ⊢
    exact h.trans ha
  have hle := hmono.length_le
  apply Nat.succ_lt_succ
  rcases lt_or_eq_of_le hle with hlt | heq
  · exact hlt
  · exfalso
    have heqlist : (distinctVals scores).filter (fun u => s < u) =
        (distinctVals scores).filter (fun u => t < u) := hmono.eq_of_length heq
    have hsmem : s ∈ (distinctVals scores).filter (fun u => t < u) :=
      List.mem_filter.mpr ⟨mem_distinctVals.mpr hs, by simp [h]⟩
    rw [← heqlist] at hsmem
    have := (List.mem_filter.mp hsmem).2
    simp at this

/-- Dense ranking has no gaps: over any nodup list, the count-of-greater-elements
function takes every value from `0` to the length minus one. -/
theorem countGt_surjective {α : Type} [LinearOrder α] [DecidableEq α] :
    ∀ (j : ℕ) (D : List α), D.Nodup → j < D.length →
      ∃ s ∈ D, (D.filter (fun t => s < t)).length = j := by
  intro j
  induction j with
  | zero =>
    intro D hnd hlen
    have hne : D ≠ [] := by
      intro h
      rw [h] at hlen
      simp at hlen
    cases hm : nanMax D with
    | none => exact absurd (nanMax_eq_none.mp hm) hne
    | some m =>
      refine ⟨m, nanMax_mem hm, ?_⟩
      rw [List.length_eq_zero]
      rw [List.filter_eq_nil_iff]
      intro t ht
      simp [not_lt.mpr (le_nanMax hm ht)]
  | succ j ih =>
    intro D hnd hlen
    cases hm : nanMax D with
    | none =>
      exfalso
      have : D = [] := nanMax_eq_none.mp hm
      rw [this] at hlen
      simp at hlen
    | some m =>
      have hmD : m ∈ D := nanMax_mem hm
      have hperm : D.Perm (m :: D.erase m) := List.perm_cons_erase hmD
      have hlen2 : j < (D.erase m).length := by
        rw [List.length_erase_of_mem hmD]
        omega
      obtain ⟨s, hsD2, hcount⟩ := ih (D.erase m) (hnd.erase m) hlen2
      have hsD : s ∈ D := List.mem_of_mem_erase hsD2
      have hsm : s < m := by
        have hle : s ≤ m := le_nanMax hm hsD
        have hne2 : s ≠ m := by
          intro h
          exact hnd.not_mem_erase (h ▸ hsD2)
        exact lt_of_le_of_ne hle hne2
      refine ⟨s, hsD, ?_⟩
      have hpf : (D.filter (fun t => s < t)).Perm
          ((m :: D.erase m).filter (fun t => s < t)) := hperm.filter _
      rw [hpf.length_eq]
      rw [List.filter_cons]
      rw [if_pos (by simp [hsm] : decide (s < m) = true)]
      simp [hcount]

/-- No-gaps property at the level of `denseRank`: every rank from `1` to the number
of distinct defined values is assigned to some defined score. -/
theorem denseRank_surjective {α : Type} [LinearOrder α] [DecidableEq α]
    (scores : List (Option α)) (j : ℕ) (h1 : 1 ≤ j)
    (h2 : j ≤ (distinctVals scores).length) :
    ∃ s, some s ∈ scores ∧ denseRank scores s = j := by
  obtain ⟨s, hsD, hcount⟩ :=
    countGt_surjective (j - 1) (distinctVals scores) (distinctVals_nodup scores)
      (by omega)
  refine ⟨s, mem_distinctVals.mp hsD, ?_⟩
  rw [denseRank, hcount]
  omega

/-- Helper for C3: with pandas NaN-skipping, a row sum of squared differences equals
the sum taken over only those selected columns where the row has a present value,
provided the reference vector is defined wherever the row is (which holds for the
ideal vectors of any row of the table). -/
theorem sumSq_eq_present_sum (rows : List Row) (sel : List String)
    (ideal : List Row → String → Option ℚ) (r : Row)
    (hideal : ∀ c ∈ sel, (r c).isSome = true → (ideal rows c).isSome = true) :
    sumSq rows sel ideal r =
      ((sel.filter (fun c => (r c).isSome)).map
        (fun c => ((r c).getD 0 - (ideal rows c).getD 0) ^ 2)).sum := by
  induction sel with
  | nil => rfl
  | cons c cs ih =>
    have hideal2 : ∀ d ∈ cs, (r d).isSome = true → (ideal rows d).isSome = true :=
      fun d hd => hideal d (List.mem_cons_of_mem c hd)
    rw [sumSq] at ih ⊢
    rw [List.map_cons, List.filter_cons]
    cases hc : r c with
    | none =>
      rw [show sqDiff (wcell r c) (ideal rows c) = none by
        rw [wcell_eq, hc]; cases ideal rows c <;> rfl]
      rw [List.filterMap_cons_none rfl]
      rw [if_neg (by simp [hc])]
      exact ih hideal2
    | some v =>
      obtain ⟨b, hb⟩ := Option.isSome_iff_exists.mp
        (hideal c (List.mem_cons_self c cs) (by simp [hc]))
      rw [show sqDiff (wcell r c) (ideal rows c) = some ((v - b) ^ 2) by
        rw [wcell_eq, hc, hb]; simp [sqDiff]]
      rw [show List.filterMap id
          (some ((v - b) ^ 2) :: List.map (fun c => sqDiff (wcell r c) (ideal rows c)) cs) =
          ((v - b) ^ 2) :: List.filterMap id
            (List.map (fun c => sqDiff (wcell r c) (ideal rows c)) cs) from rfl]
      rw [if_pos (by simp [hc])]
      rw [List.map_cons, List.sum_cons, List.sum_cons]
      rw [ih hideal2, hc, hb]
      simp

theorem ideal_best_isSome_of_present {rows : List Row} {sel : List String} {r : Row}
    (hr : r ∈ rows) :
    ∀ c ∈ sel, (r c).isSome = true → (ideal_best rows c).isSome = true := by
  intro c _ hsome
  obtain ⟨v, hv⟩ := Option.isSome_iff_exists.mp hsome
  obtain ⟨b, hb⟩ := colMax_isSome_of_present hr hv
  rw [ideal_best_eq_colMax, hb]
  rfl

theorem ideal_worst_isSome_of_present {rows : List Row} {sel : List String} {r : Row}
    (hr : r ∈ rows) :
    ∀ c ∈ sel, (r c).isSome = true → (ideal_worst rows c).isSome = true := by
  intro c _ hsome
  obtain ⟨v, hv⟩ := Option.isSome_iff_exists.mp hsome
  obtain ⟨a, ha⟩ := colMin_isSome_of_present hr hv
  rw [ideal_worst_eq_colMin, ha]
  rfl

/-! ### Concrete tables used by the witnesses -/

/-- Witness row with the value `0` in column `X`. -/
def xr0 : Row := fun c => if c = ("X") then some 0 else none

/-- Witness row with the value `2` in column `X`. -/
def xr1 : Row := fun c => if c = ("X") then some 2 else none

/-- Witness table with one column `X` holding the values `0` and `2`. -/
def xdf : DataFrame := ⟨["X"], [xr0, xr1]⟩

theorem xdf_colMin : colMin xdf.rows ("X") = some 0 := by decide

theorem xdf_colMax : colMax xdf.rows ("X") = some 2 := by decide

theorem xdf_sumSq_best : sumSq xdf.rows ["X"] ideal_best xr1 = 0 := by
  have hb : ideal_best xdf.rows ("X") = some 2 := by
    rw [ideal_best_eq_colMax]; exact xdf_colMax
  rw [sumSq]
  rw [show xdf.rows = [xr0, xr1] from rfl] at hb ⊢
  simp [hb, sqDiff, wcell_eq, xr1]

theorem xdf_sumSq_worst : sumSq xdf.rows ["X"] ideal_worst xr1 = 4 := by
  have ha : ideal_worst xdf.rows ("X") = some 0 := by
    rw [ideal_worst_eq_colMin]; exact xdf_colMin
  rw [sumSq]
  rw [show xdf.rows = [xr0, xr1] from rfl] at ha ⊢
  simp [ha, sqDiff, wcell_eq, xr1]
  norm_num

theorem xdf_distance_to_best : distance_to_best xdf.rows ["X"] xr1 = 0 := by
  rw [distance_to_best, xdf_sumSq_best]
  simp

theorem xdf_distance_to_worst : distance_to_worst xdf.rows ["X"] xr1 = 2 := by
  rw [distance_to_worst, xdf_sumSq_worst]
  rw [show (((4 : ℚ) : ℝ)) = (2 : ℝ) ^ 2 by norm_num]
  exact Real.sqrt_sq (by norm_num)

/-- Witness rows and table with columns `X`, `Y` where the second row misses `Y`. -/
def yr0 : Row := fun c => if c = ("X") then some 0 else if c = ("Y") then some 3 else none

/-- Witness row with `X` present and `Y` absent. -/
def yr1 : Row := fun c => if c = ("X") then some 2 else none

/-- Witness table with columns `X`, `Y` and a partially absent second row. -/
def ydf : DataFrame := ⟨["X", "Y"], [yr0, yr1]⟩

/-! ### Claim theorems -/

/-- C4 (confirmed): for every table, selection and region row whose denominator
`d_best(r) + d_worst(r)` is nonzero, the closeness score
`score(r) = d_worst(r) / (d_best(r) + d_worst(r))` is defined and lies in the closed
interval `[0, 1]`.  In this real-valued model of float arithmetic both distances are
always finite, so finiteness needs no separate hypothesis. -/
theorem C4_score_in_unit_interval (rows : List Row) (sel : List String) (r : Row)
    (h : distance_to_best rows sel r + distance_to_worst rows sel r ≠ 0) :
    ∃ s, topsis_score rows sel r = some s ∧ 0 ≤ s ∧ s ≤ 1 := by
  have hb : 0 ≤ distance_to_best rows sel r := Real.sqrt_nonneg _
  have hw : 0 ≤ distance_to_worst rows sel r := Real.sqrt_nonneg _
  have hpos : 0 < distance_to_best rows sel r + distance_to_worst rows sel r :=
    lt_of_le_of_ne (add_nonneg hb hw) (Ne.symm h)
  refine ⟨_, by rw [topsis_score, if_neg h], ?_, ?_⟩
  · exact div_nonneg hw (le_of_lt hpos)
  · rw [div_le_one hpos]
    exact le_add_of_nonneg_left hb

/-- Witness for C4: in the concrete table `xdf` the second row has distances
`0` and `2`, a nonzero denominator, and its score is defined and in `[0, 1]`. -/
theorem C4_witness :
    distance_to_best xdf.rows ["X"] xr1 + distance_to_worst xdf.rows ["X"] xr1 ≠ 0 ∧
    ∃ s, topsis_score xdf.rows ["X"] xr1 = some s ∧ 0 ≤ s ∧ s ≤ 1 := by
  have h : distance_to_best xdf.rows ["X"] xr1 + distance_to_worst xdf.rows ["X"] xr1 ≠ 0 := by
    rw [xdf_distance_to_best, xdf_distance_to_worst]
    norm_num
  exact ⟨h, C4_score_in_unit_interval xdf.rows ["X"] xr1 h⟩

/-- C3 (confirmed): for every region row of the table, both distances are the square
roots of sums of squared differences taken only over the selected columns whose value
is present for that row; columns where the row value is absent contribute nothing to
either sum. -/
theorem C3_distances_over_present_columns (rows : List Row) (sel : List String) (r : Row)
    (hr : r ∈ rows) :
    distance_to_best rows sel r = Real.sqrt
      ((((sel.filter (fun c => (r c).isSome)).map
        (fun c => ((r c).getD 0 - (ideal_best rows c).getD 0) ^ 2)).sum : ℚ) : ℝ) ∧
    distance_to_worst rows sel r = Real.sqrt
      ((((sel.filter (fun c => (r c).isSome)).map
        (fun c => ((r c).getD 0 - (ideal_worst rows c).getD 0) ^ 2)).sum : ℚ) : ℝ) := by
  constructor
  · rw [distance_to_best,
      sumSq_eq_present_sum rows sel ideal_best r (ideal_best_isSome_of_present hr)]
  · rw [distance_to_worst,
      sumSq_eq_present_sum rows sel ideal_worst r (ideal_worst_isSome_of_present hr)]

/-- Witness for C3: in the concrete table `ydf` the second row has `Y` absent, and
its distances reduce to the present-column (`X`-only after filtering) sums. -/
theorem C3_witness :
    yr1 ∈ ydf.rows ∧
    (distance_to_best ydf.rows ["X", "Y"] yr1 = Real.sqrt
      (((((["X", "Y"] : List String).filter (fun c => (yr1 c).isSome)).map
        (fun c => ((yr1 c).getD 0 - (ideal_best ydf.rows c).getD 0) ^ 2)).sum : ℚ) : ℝ) ∧
    distance_to_worst ydf.rows ["X", "Y"] yr1 = Real.sqrt
      (((((["X", "Y"] : List String).filter (fun c => (yr1 c).isSome)).map
        (fun c => ((yr1 c).getD 0 - (ideal_worst ydf.rows c).getD 0) ^ 2)).sum : ℚ) : ℝ)) := by
  have hr : yr1 ∈ ydf.rows := List.Mem.tail yr0 (List.Mem.head [])
  exact ⟨hr, C3_distances_over_present_columns ydf.rows ["X", "Y"] yr1 hr⟩

/-- C9 (confirmed): a region row all of whose selected cells are absent keeps its row
in the result (the carried frame is the input frame, whose `i`-th row it is) while its
`topsis_score` entry and its `topsis_rank` (percentile) entry are both `NaN`; the call
still succeeds with no message — a partial success, not an abort.  The degenerate row
has both distances `sqrt 0 = 0`, so its score is the float `0 / 0`, i.e. `NaN`, and
pandas ranking keeps `NaN` at `NaN`. -/
theorem C9_degenerate_region_partial_success (df : DataFrame) (sel : List String)
    (i : ℕ) (r : Row)
    (hsel : sel ≠ [])
    (hcols : ∀ c ∈ sel, c ∈ df.cols)
    (hnot : allNull df sel = false)
    (hi : df.rows[i]? = some r)
    (habs : ∀ c ∈ sel, r c = none) :
    topsis df sel =
      (TopsisOut.table df (topsisScores df.rows sel)
        (rankPctCol (topsisScores df.rows sel)), []) ∧
    (topsisScores df.rows sel)[i]? = some none ∧
    (rankPctCol (topsisScores df.rows sel))[i]? = some none := by
  have hscore : (topsisScores df.rows sel)[i]? = some none := by
    rw [topsisScores, List.getElem?_map, hi]
    simp [topsis_score_of_all_absent habs]
  refine ⟨?_, hscore, ?_⟩
  · rw [topsis, if_neg hsel, if_neg (not_not_intro hcols), if_neg (by simp [hnot])]
  · rw [rankPctCol, List.getElem?_map, hscore]
    rfl

/-- Witness row with every cell absent. -/
def nr : Row := fun _ => none

/-- Witness table whose second row is fully absent while the first has data. -/
def ndf : DataFrame := ⟨["X"], [xr1, nr]⟩

/-- Witness for C9: in `ndf` the fully absent second row keeps its place in the output
with `NaN` score and `NaN` percentile, and the call succeeds. -/
theorem C9_witness :
    topsis ndf ["X"] =
      (TopsisOut.table ndf (topsisScores ndf.rows ["X"])
        (rankPctCol (topsisScores ndf.rows ["X"])), []) ∧
    (topsisScores ndf.rows ["X"])[1]? = some none ∧
    (rankPctCol (topsisScores ndf.rows ["X"]))[1]? = some none :=
  C9_degenerate_region_partial_success ndf ["X"] 1 nr (by decide) (by decide) (by decide)
    rfl (fun c _ => rfl)

/-- C10 (confirmed): if any single selected name is missing from the table columns —
regardless of how well populated the other selected columns are — `topsis` rejects the
whole selection: it emits the missing-indicator error message and returns the bare
empty frame with no scores. -/
theorem C10_missing_column_rejects_selection (df : DataFrame) (sel : List String)
    (c₀ : String) (hmem : c₀ ∈ sel) (hnot : c₀ ∉ df.cols) :
    topsis df sel =
      (TopsisOut.failure,
        ["One or more selected indicators are not found in the data."]) := by
  have hsel : sel ≠ [] := by
    intro h
    rw [h] at hmem
    simp at hmem
  have hcols : ¬ ∀ c ∈ sel, c ∈ df.cols := by
    intro h
    exact hnot (h c₀ hmem)
  rw [topsis, if_neg hsel, if_pos hcols]

/-- Witness for C10: selecting the existing column `X` together with the missing
column `Z` on the table `xdf` yields the error and the bare empty frame. -/
theorem C10_witness :
    ("Z") ∈ (["X", "Z"] : List String) ∧ ("Z") ∉ xdf.cols ∧
    topsis xdf ["X", "Z"] =
      (TopsisOut.failure,
        ["One or more selected indicators are not found in the data."]) :=
  ⟨by decide, by decide,
    C10_missing_column_rejects_selection xdf ["X", "Z"] ("Z") (by decide) (by decide)⟩

/-- C5 counterexample (closed): on an empty selection `topsis` returns the bare empty
frame but surfaces NO message at all — the message list is empty — contradicting the
claim that the engine always surfaces an explicit failure for an invalid (here empty)
selection.  Only the missing-column case produces a message. -/
theorem C5_counterexample :
    (topsis xdf []).1 = TopsisOut.failure ∧ (topsis xdf []).2 = [] := by
  rw [topsis, if_pos rfl]
  exact ⟨rfl, rfl⟩

/-- C5 amended (corrected): for an empty selection, or a selection some of whose
names are missing from the table (in particular when none exist), the engine returns
the bare empty frame — no score rows, and a result structurally distinct from every
successful (possibly empty-celled) result, which is always a `table` — but a
descriptive message is surfaced only in the missing-column case; the empty-selection
case returns silently. -/
theorem C5_invalid_selection_no_scores (df : DataFrame) (sel : List String)
    (h : sel = [] ∨ ¬ ∀ c ∈ sel, c ∈ df.cols) :
    (topsis df sel).1 = TopsisOut.failure ∧
    ((topsis df sel).2 ≠ [] ↔ sel ≠ []) ∧
    (∀ b s k, (TopsisOut.failure : TopsisOut) ≠ TopsisOut.table b s k) := by
  have hdisj : ∀ b s k, (TopsisOut.failure : TopsisOut) ≠ TopsisOut.table b s k := by
    intro b s k hh
    cases hh
  rcases h with h | h
  · subst h
    rw [topsis, if_pos rfl]
    exact ⟨rfl, by simp, hdisj⟩
  · have hsel : sel ≠ [] := by
      intro he
      subst he
      exact h (by simp)
    rw [topsis, if_neg hsel, if_pos h]
    refine ⟨rfl, ?_, hdisj⟩
    simp [hsel]

/-- Witness for C5 amended: applying it to the table `xdf` and the selection
consisting of the single nonexistent column `Z`. -/
theorem C5_witness :
    (topsis xdf ["Z"]).1 = TopsisOut.failure ∧
    ((topsis xdf ["Z"]).2 ≠ [] ↔ (["Z"] : List String) ≠ []) ∧
    (∀ b s k, (TopsisOut.failure : TopsisOut) ≠ TopsisOut.table b s k) :=
  C5_invalid_selection_no_scores xdf ["Z"] (Or.inr (by decide))

/-- Witness row with the constant value `5` in column `A`. -/
def ar : Row := fun c => if c = ("A") then some 5 else none

/-- Witness table with one zero-variance column `A` (both rows hold `5`). -/
def adf : DataFrame := ⟨["A"], [ar, ar]⟩

theorem adf_colMin : colMin adf.rows ("A") = some 5 := by decide

theorem adf_colMax : colMax adf.rows ("A") = some 5 := by decide

/-- C2 counterexample (closed): on the concrete table `adf`, whose selected column
`A` has zero variance (`max = min = 5`), `normalize_data` does NOT fail: it surfaces
no message and produces the numeric value `0` for that column — sklearn silently
substitutes the default scale `1` for the zero range — contradicting the claim that
a degenerate column is signalled to the caller as a per-column error. -/
theorem C2_counterexample :
    (normalize_data adf ["A"]).msgs = [] ∧
    ((normalize_data adf ["A"]).ret.rows[0]?.map (fun r => r ("A"))) = some (some 0) := by
  have hbr : normalize_data adf ["A"] =
      ⟨⟨adf.cols, adf.rows.map (normRow adf.rows ["A"])⟩,
       ⟨adf.cols, adf.rows.map (normRow adf.rows ["A"])⟩, []⟩ := by
    rw [normalize_data, if_neg (by simp), if_neg (by simp [adf])]
  refine ⟨by rw [hbr], ?_⟩
  rw [hbr]
  show some (normRow adf.rows ["A"] ar ("A")) = some (some 0)
  rw [normRow_mem adf.rows ar (by simp), adf_colMin, adf_colMax]
  rw [show ar ("A") = some 5 from rfl]
  rw [scaleCell_of_zero_range 5 5 5 (sub_self 5)]
  norm_num

/-- C2 amended (corrected): normalization does not fail on degenerate columns and
signals nothing.  For a selected zero-variance column (present minimum equals present
maximum) every present cell becomes the number `0` — sklearn replaces the zero range
by the default divisor `1`, so no division by zero occurs — and absent cells stay
absent; for an entirely absent selected column every cell stays absent; in all cases
the call succeeds with an empty message list. -/
theorem C2_degenerate_column_silent (df : DataFrame) (sel : List String) (c : String)
    (hc : c ∈ sel) (hcols : ∀ d ∈ sel, d ∈ df.cols)
    (hrows : df.rows.isEmpty = false) :
    (normalize_data df sel).msgs = [] ∧
    (normalize_data df sel).ret.rows = df.rows.map (normRow df.rows sel) ∧
    (∀ m, colMin df.rows c = some m → colMax df.rows c = some m →
      ∀ r ∈ df.rows,
        (∀ v, r c = some v → normRow df.rows sel r c = some 0) ∧
        (r c = none → normRow df.rows sel r c = none)) ∧
    (colMin df.rows c = none → ∀ r ∈ df.rows, normRow df.rows sel r c = none) := by
  have hsel : sel ≠ [] := by
    intro h
    rw [h] at hc
    simp at hc
  have hbr : normalize_data df sel =
      ⟨⟨df.cols, df.rows.map (normRow df.rows sel)⟩,
       ⟨df.cols, df.rows.map (normRow df.rows sel)⟩, []⟩ := by
    rw [normalize_data, if_neg hsel,
      if_neg (not_or.mpr ⟨not_not_intro hcols, by simp [hrows]⟩)]
  refine ⟨by rw [hbr], by rw [hbr], ?_, ?_⟩
  · intro m hmin hmax r hr
    constructor
    · intro v hv
      have h1 : m ≤ v := colMin_le_of_present hr hv hmin
      have h2 : v ≤ m := le_colMax_of_present hr hv hmax
      have hvm : v = m := le_antisymm h2 h1
      rw [normRow_mem df.rows r hc, hmin, hmax, hv, hvm,
        scaleCell_of_zero_range m m m (sub_self m)]
      rw [sub_self]
    · intro hv
      rw [normRow_mem df.rows r hc, hv, scaleCell_none]
  · intro hnone r hr
    cases hv : r c with
    | none => rw [normRow_mem df.rows r hc, hv, scaleCell_none]
    | some v =>
      exfalso
      obtain ⟨a, ha⟩ := colMin_isSome_of_present hr hv
      rw [hnone] at ha
      cases ha

/-- Witness for C2 amended: applied to the concrete zero-variance table `adf`; the
constant cell `5` normalizes to `0` with no message surfaced. -/
theorem C2_witness :
    (normalize_data adf ["A"]).msgs = [] ∧
    normRow adf.rows ["A"] ar ("A") = some 0 := by
  obtain ⟨hmsgs, _, hzero, _⟩ :=
    C2_degenerate_column_silent adf ["A"] ("A") (by decide) (by decide) (by decide)
  exact ⟨hmsgs,
    (hzero 5 adf_colMin adf_colMax ar (List.Mem.head [ar])).1 5 rfl⟩

/-- C6 counterexample (closed): `normalize_data` mutates its argument.  After the
call on the concrete table `xdf` the table of the caller (the post-state `final`) is not
the table that was passed in: the `X` cell of the second row changed from `2` to the
scaled `1`.  This refutes the claim that the source matrix is left unmutated. -/
theorem C6_counterexample : (normalize_data xdf ["X"]).final ≠ xdf := by
  intro heq
  have hbr : normalize_data xdf ["X"] =
      ⟨⟨xdf.cols, xdf.rows.map (normRow xdf.rows ["X"])⟩,
       ⟨xdf.cols, xdf.rows.map (normRow xdf.rows ["X"])⟩, []⟩ := by
    rw [normalize_data, if_neg (by simp), if_neg (by simp [xdf])]
  have h1 : (normalize_data xdf ["X"]).final.rows[1]?.map (fun r => r ("X")) =
      some (some 1) := by
    rw [hbr]
    show some (normRow xdf.rows ["X"] xr1 ("X")) = some (some 1)
    rw [normRow_mem xdf.rows xr1 (by simp), xdf_colMin, xdf_colMax]
    rw [show xr1 ("X") = some 2 from rfl]
    rw [scaleCell_of_ne 0 2 2 (by norm_num)]
    norm_num
  rw [heq] at h1
  rw [show xdf.rows[1]?.map (fun r => r ("X")) = some (some 2) from rfl] at h1
  have : (2 : ℚ) = 1 := by
    have := Option.some.inj (Option.some.inj h1)
    exact this
  norm_num at this

/-- C6 amended (corrected): `normalize_data` is a deterministic function of its
arguments, but it is not mutation free.  In the successful branch the table passed in
is mutated in place — every selected column of every row is overwritten with its
scaled value, non-selected columns are untouched, the column list is unchanged — and
the returned table is that same mutated table, not a fresh copy (post-state and
return value coincide).  The caller in `main` protects the loaded matrix by passing
`df.copy()`. -/
theorem C6_normalize_mutates_in_place (df : DataFrame) (sel : List String)
    (hsel : sel ≠ []) (hcols : ∀ c ∈ sel, c ∈ df.cols)
    (hrows : df.rows.isEmpty = false) :
    (normalize_data df sel).final = (normalize_data df sel).ret ∧
    (normalize_data df sel).msgs = [] ∧
    (normalize_data df sel).final.cols = df.cols ∧
    (normalize_data df sel).final.rows = df.rows.map (normRow df.rows sel) ∧
    (∀ r c, c ∉ sel → normRow df.rows sel r c = r c) := by
  have hbr : normalize_data df sel =
      ⟨⟨df.cols, df.rows.map (normRow df.rows sel)⟩,
       ⟨df.cols, df.rows.map (normRow df.rows sel)⟩, []⟩ := by
    rw [normalize_data, if_neg hsel,
      if_neg (not_or.mpr ⟨not_not_intro hcols, by simp [hrows]⟩)]
  refine ⟨by rw [hbr], by rw [hbr], by rw [hbr], by rw [hbr], ?_⟩
  intro r c hc
  exact normRow_not_mem df.rows r hc

/-- Witness for C6 amended: applied to the concrete table `xdf` with selection `X`. -/
theorem C6_witness :
    (normalize_data xdf ["X"]).final = (normalize_data xdf ["X"]).ret ∧
    (normalize_data xdf ["X"]).msgs = [] ∧
    (normalize_data xdf ["X"]).final.cols = xdf.cols ∧
    (normalize_data xdf ["X"]).final.rows = xdf.rows.map (normRow xdf.rows ["X"]) ∧
    (∀ r c, c ∉ (["X"] : List String) → normRow xdf.rows ["X"] r c = r c) :=
  C6_normalize_mutates_in_place xdf ["X"] (by decide) (by decide) (by decide)

/-- C7 (confirmed): for a selected column with at least two distinct present values
(present minimum `a` and maximum `b` over the WHOLE table, `a ≠ b`), normalization
maps every present cell `v` of that column to `(v - a) / (b - a)`, which lies in
`[0, 1]`, with the column minimum mapped exactly to `0` and the maximum exactly to
`1`; absent cells stay absent (no imputation); and the returned table applies exactly
this per-row transform. -/
theorem C7_minmax_normalization (df : DataFrame) (sel : List String) (c : String)
    (hc : c ∈ sel) (hcols : ∀ d ∈ sel, d ∈ df.cols) (hrows : df.rows.isEmpty = false)
    (a b : ℚ) (hmin : colMin df.rows c = some a) (hmax : colMax df.rows c = some b)
    (hab : a ≠ b) (r : Row) (hr : r ∈ df.rows) :
    (normalize_data df sel).ret.rows = df.rows.map (normRow df.rows sel) ∧
    (∀ v, r c = some v →
      normRow df.rows sel r c = some ((v - a) / (b - a)) ∧
      0 ≤ (v - a) / (b - a) ∧ (v - a) / (b - a) ≤ 1 ∧
      (v = a → (v - a) / (b - a) = 0) ∧ (v = b → (v - a) / (b - a) = 1)) ∧
    (r c = none → normRow df.rows sel r c = none) := by
  have hsel : sel ≠ [] := by
    intro h
    rw [h] at hc
    simp at hc
  have haval : a ∈ presentVals df.rows c := nanMin_mem hmin
  have hle : a ≤ b := le_nanMax hmax haval
  have hlt : a < b := lt_of_le_of_ne hle hab
  have hba : b - a ≠ 0 := by
    intro h
    exact hab (by linarith [sub_eq_zero.mp h])
  have hbapos : 0 < b - a := sub_pos.mpr hlt
  refine ⟨?_, ?_, ?_⟩
  · rw [normalize_data, if_neg hsel,
      if_neg (not_or.mpr ⟨not_not_intro hcols, by simp [hrows]⟩)]
  · intro v hv
    have h1 : a ≤ v := colMin_le_of_present hr hv hmin
    have h2 : v ≤ b := le_colMax_of_present hr hv hmax
    refine ⟨?_, ?_, ?_, ?_, ?_⟩
    · rw [normRow_mem df.rows r hc, hmin, hmax, hv, scaleCell_of_ne a b v hba]
    · exact div_nonneg (sub_nonneg.mpr h1) (le_of_lt hbapos)
    · rw [div_le_one hbapos]
      exact sub_le_sub_right h2 a
    · intro hva
      rw [hva, sub_self, zero_div]
    · intro hvb
      rw [hvb, div_self hba]
  · intro hv
    rw [normRow_mem df.rows r hc, hv, scaleCell_none]

/-- Witness for C7: in the concrete table `xdf`, with column minimum `0` and maximum
`2`, the second row (value `2`, the maximum) is sent to `(2 - 0) / (2 - 0) = 1`. -/
theorem C7_witness :
    (normalize_data xdf ["X"]).ret.rows = xdf.rows.map (normRow xdf.rows ["X"]) ∧
    (∀ v, xr1 ("X") = some v →
      normRow xdf.rows ["X"] xr1 ("X") = some ((v - 0) / (2 - 0)) ∧
      0 ≤ (v - 0) / (2 - 0) ∧ (v - 0) / (2 - 0) ≤ 1 ∧
      (v = 0 → (v - 0) / (2 - 0) = 0) ∧ (v = 2 → (v - 0) / (2 - 0) = 1)) ∧
    (xr1 ("X") = none → normRow xdf.rows ["X"] xr1 ("X") = none) :=
  C7_minmax_normalization xdf ["X"] ("X") (by decide) (by decide) (by decide)
    0 2 xdf_colMin xdf_colMax (by norm_num) xr1 (List.Mem.tail xr0 (List.Mem.head []))

/-- C1 (confirmed): the rank deriver computes a dense descending rank over the
regions with a defined score — equal scores share a rank, a strictly higher score
gets a strictly smaller rank, the top score gets rank `1`, every rank value between
`1` and `k` is assigned (no gaps) where `k` is the number of distinct defined score
values — and the output column is exactly `percentile = denseRank / k * 100`;
consequently a region with the highest score receives the smallest percentile.
Stated over an arbitrary linear ordered field; `topsis` instantiates it at `ℝ`,
witnesses evaluate it at `ℚ`. -/
theorem C1_dense_rank_percentile {α : Type} [LinearOrderedField α] [DecidableEq α]
    (scores : List (Option α)) (s : α) (hs : some s ∈ scores) :
    (∀ t, some t ∈ scores → t = s → denseRank scores t = denseRank scores s) ∧
    (∀ t, some t ∈ scores → t < s → denseRank scores s < denseRank scores t) ∧
    ((∀ t, some t ∈ scores → t ≤ s) → denseRank scores s = 1) ∧
    (1 ≤ denseRank scores s ∧ denseRank scores s ≤ (distinctVals scores).length) ∧
    (∀ j, 1 ≤ j → j ≤ (distinctVals scores).length →
      ∃ u, some u ∈ scores ∧ denseRank scores u = j) ∧
    (rankPctCol scores = scores.map (Option.map (fun u =>
      (denseRank scores u : α) / ((distinctVals scores).length : α) * 100))) ∧
    ((∀ t, some t ∈ scores → t ≤ s) → ∀ t, some t ∈ scores →
      rankPct scores s ≤ rankPct scores t) := by
  refine ⟨?_, ?_, ?_, ⟨denseRank_pos scores s, denseRank_le_card hs⟩, ?_, rfl, ?_⟩
  · intro t _ ht
    rw [ht]
  · intro t _ ht
    exact denseRank_lt_of_gt hs ht
  · exact denseRank_eq_one_of_top
  · exact denseRank_surjective scores
  · intro htop t ht
    have h1 : denseRank scores s = 1 := denseRank_eq_one_of_top htop
    have hk : 0 < (distinctVals scores).length :=
      List.length_pos.mpr (List.ne_nil_of_mem (mem_distinctVals.mpr hs))
    have hkpos : (0 : α) < ((distinctVals scores).length : α) := by exact_mod_cast hk
    have hle : (denseRank scores s : α) ≤ (denseRank scores t : α) := by
      rw [h1]
      exact_mod_cast denseRank_pos scores t
    rw [rankPct, rankPct]
    apply mul_le_mul_of_nonneg_right _ (by norm_num : (0 : α) ≤ 100)
    exact (div_le_div_iff_of_pos_right hkpos).mpr hle

/-- Witness score column for C1: two tied top scores and one lower score. -/
def S1 : List (Option ℚ) := [some 1, some 1, some 0]

/-- Witness for C1: on the concrete score column `S1` with `s = 1` the whole
conjunction is obtained by instantiating the claim theorem. -/
theorem C1_witness :
    (∀ t, some t ∈ S1 → t = 1 → denseRank S1 t = denseRank S1 1) ∧
    (∀ t, some t ∈ S1 → t < 1 → denseRank S1 1 < denseRank S1 t) ∧
    ((∀ t, some t ∈ S1 → t ≤ 1) → denseRank S1 1 = 1) ∧
    (1 ≤ denseRank S1 1 ∧ denseRank S1 1 ≤ (distinctVals S1).length) ∧
    (∀ j, 1 ≤ j → j ≤ (distinctVals S1).length →
      ∃ u, some u ∈ S1 ∧ denseRank S1 u = j) ∧
    (rankPctCol S1 = S1.map (Option.map (fun u =>
      (denseRank S1 u : ℚ) / ((distinctVals S1).length : ℚ) * 100))) ∧
    ((∀ t, some t ∈ S1 → t ≤ 1) → ∀ t, some t ∈ S1 →
      rankPct S1 1 ≤ rankPct S1 t) :=
  C1_dense_rank_percentile S1 1 (by decide)

/-- Congruence of the normalization transform under permutation of the table rows and
of the selection list: the per-column statistics only depend on the multiset of rows
and membership only on the set of selected names. -/
theorem normRow_congr {rows₁ rows₂ : List Row} {sel₁ sel₂ : List String}
    (hrows : rows₁.Perm rows₂) (hsel : sel₁.Perm sel₂) :
    normRow rows₁ sel₁ = normRow rows₂ sel₂ := by
  funext r c
  rw [normRow, normRow, colMin_perm hrows c, colMax_perm hrows c]
  exact if_congr hsel.mem_iff rfl rfl

theorem ideal_best_perm {rows₁ rows₂ : List Row} (hrows : rows₁.Perm rows₂)
    (c : String) : ideal_best rows₁ c = ideal_best rows₂ c := by
  rw [ideal_best_eq_colMax, ideal_best_eq_colMax, colMax_perm hrows c]

theorem ideal_worst_perm {rows₁ rows₂ : List Row} (hrows : rows₁.Perm rows₂)
    (c : String) : ideal_worst rows₁ c = ideal_worst rows₂ c := by
  rw [ideal_worst_eq_colMin, ideal_worst_eq_colMin, colMin_perm hrows c]

theorem sumSq_congr {rows₁ rows₂ : List Row} {sel₁ sel₂ : List String}
    (hsel : sel₁.Perm sel₂) (ideal : List Row → String → Option ℚ)
    (hideal : ∀ c, ideal rows₁ c = ideal rows₂ c) (r : Row) :
    sumSq rows₁ sel₁ ideal r = sumSq rows₂ sel₂ ideal r := by
  rw [sumSq, sumSq]
  have hf : (fun c => sqDiff (wcell r c) (ideal rows₁ c)) =
      (fun c => sqDiff (wcell r c) (ideal rows₂ c)) :=
    funext fun c => by rw [hideal c]
  rw [hf]
  exact ((hsel.map _).filterMap id).sum_eq

theorem topsis_score_congr {rows₁ rows₂ : List Row} {sel₁ sel₂ : List String}
    (hrows : rows₁.Perm rows₂) (hsel : sel₁.Perm sel₂) (r : Row) :
    topsis_score rows₁ sel₁ r = topsis_score rows₂ sel₂ r := by
  have hb : distance_to_best rows₁ sel₁ r = distance_to_best rows₂ sel₂ r := by
    rw [distance_to_best, distance_to_best,
      sumSq_congr hsel ideal_best (fun c => ideal_best_perm hrows c) r]
  have hw : distance_to_worst rows₁ sel₁ r = distance_to_worst rows₂ sel₂ r := by
    rw [distance_to_worst, distance_to_worst,
      sumSq_congr hsel ideal_worst (fun c => ideal_worst_perm hrows c) r]
  rw [topsis_score, topsis_score, hb, hw]

/-- C8 (confirmed): the per-region score produced by the engine pipeline
(normalization followed by TOPSIS) is unchanged, for each region row, when the rows
of the input table are permuted and when the selection list is permuted. -/
theorem C8_scores_invariant_under_permutation (rows₁ rows₂ : List Row)
    (sel₁ sel₂ : List String) (hrows : rows₁.Perm rows₂) (hsel : sel₁.Perm sel₂)
    (r : Row) : engineScoreRow rows₁ sel₁ r = engineScoreRow rows₂ sel₂ r := by
  rw [engineScoreRow, engineScoreRow, normRow_congr hrows hsel]
  exact topsis_score_congr (hrows.map (normRow rows₂ sel₂)) hsel (normRow rows₂ sel₂ r)

/-- Witness for C8: swapping the two rows of the concrete table and keeping the
selection leaves the score of the first region unchanged. -/
theorem C8_witness :
    engineScoreRow [xr0, xr1] ["X"] xr0 = engineScoreRow [xr1, xr0] ["X"] xr0 :=
  C8_scores_invariant_under_permutation [xr0, xr1] [xr1, xr0] ["X"] ["X"]
    (List.Perm.swap xr1 xr0 []) (List.Perm.refl ["X"]) xr0

/-- Link between `engineScoreRow` and the pipeline of `main`: in the successful
branch, the score column that `topsis` appends to the normalized table is exactly the
input rows mapped through `engineScoreRow`. -/
theorem engine_pipeline_scores (df : DataFrame) (sel : List String)
    (hsel : sel ≠ []) (hcols : ∀ c ∈ sel, c ∈ df.cols)
    (hrows : df.rows.isEmpty = false)
    (hnn : allNull (normalize_data df sel).ret sel = false) :
    topsis (normalize_data df sel).ret sel =
      (TopsisOut.table (normalize_data df sel).ret
        (df.rows.map (engineScoreRow df.rows sel))
        (rankPctCol (df.rows.map (engineScoreRow df.rows sel))), []) := by
  have hbr : (normalize_data df sel).ret =
      ⟨df.cols, df.rows.map (normRow df.rows sel)⟩ := by
    rw [normalize_data, if_neg hsel,
      if_neg (not_or.mpr ⟨not_not_intro hcols, by simp [hrows]⟩)]
  have hcols2 : ∀ c ∈ sel, c ∈ (normalize_data df sel).ret.cols := by
    rw [hbr]
    exact hcols
  have hsc : topsisScores (normalize_data df sel).ret.rows sel =
      df.rows.map (engineScoreRow df.rows sel) := by
    rw [hbr]
    show topsisScores (df.rows.map (normRow df.rows sel)) sel = _
    rw [topsisScores, List.map_map]
    rfl
  rw [topsis, if_neg hsel, if_neg (not_not_intro hcols2), if_neg (by simp [hnn]), hsc]

end EJI
